import Mathlib

/- Verification development for the mm-fast measurement-extraction code
   (src/api).  The Python functions are shallowly embedded as Lean
   functions on lists: numpy arrays become lists, numpy slice assignment
   becomes an explicit index-wise update, Python exceptions become an
   error type threaded through Except. -/

namespace MMFast

/-- Failure modes of the embedded Python code.  emptyTimeSeriesException
models exceptions.EmptyTimeSeriesException; indexError models numpy's
IndexError on an out-of-range scalar index; streamNotFound models the
bare Exception raised at measurement_processing.py line 71 when the
requested stream is not advertised; fileNotFound models the OSError that
h5py.File raises on a missing container file. -/
inductive PyErr where
  | emptyTimeSeriesException : PyErr
  | indexError : PyErr
  | streamNotFound : PyErr
  | fileNotFound : PyErr
  deriving DecidableEq, Repr

/-- Embedding of get_id_series (measurement_processing.py lines 89-120),
the run-length encoder.  timestamps is 0 followed by (each index i in
range(len-1) with d[i] != d[i+1]) shifted up by one; id_series selects
the input at those indices (numpy fancy indexing, rendered as filterMap
because every index is provably in range); the final timestamp
len(d) is appended only after id_series has been computed, exactly as in
the source.  An empty input raises EmptyTimeSeriesException. -/
def get_id_series {α : Type} [DecidableEq α] (uuid_timeseries : List α)
    (append_final_timestamp : Bool) : Except PyErr (List α × List Nat) :=
  if uuid_timeseries.length = 0 then
    .error .emptyTimeSeriesException
  else
    let timestamps : List Nat :=
      0 :: ((List.range (uuid_timeseries.length - 1)).filter
        (fun i => decide (uuid_timeseries[i]? ≠ uuid_timeseries[i + 1]?))).map (· + 1)
    let id_series : List α := timestamps.filterMap (fun t => uuid_timeseries[t]?)
    .ok (id_series,
      if append_final_timestamp then timestamps ++ [uuid_timeseries.length] else timestamps)

/-- Numpy slice assignment arr[a:b] = v for non-negative bounds: every
position i with a <= i < b receives v, out-of-range parts of the slice
are clamped away, and a >= b assigns nothing. -/
def sliceAssign {α : Type} (arr : List α) (a b : Nat) (v : α) : List α :=
  arr.mapIdx (fun i x => if a ≤ i ∧ i < b then v else x)

/-- Embedding of get_time_series_for_id_series (measurement_processing.py
lines 123-148), the run-length decoder.  If either input is empty it
returns an empty array.  Otherwise it allocates np.empty(timestamps[-1])
-- the parameter dflt stands for the arbitrary uninitialised contents --
and for each i in range(len(timestamps)) assigns
arr[timestamps[i-1] : timestamps[i]] = id_series[i-1], where index -1
wraps to the last element (Python negative indexing) and an out-of-range
scalar read id_series[i-1] raises IndexError. -/
def get_time_series_for_id_series {α : Type} (dflt : α) (id_series : List α)
    (timestamps : List Nat) : Except PyErr (List α) :=
  if timestamps.length = 0 ∨ id_series.length = 0 then .ok []
  else
    (List.range timestamps.length).foldl
      (fun acc i =>
        acc.bind (fun arr =>
          match (if i = 0 then id_series.getLast? else id_series[i - 1]?) with
          | none => .error .indexError
          | some v =>
              .ok (sliceAssign arr
                (if i = 0 then timestamps.getLastD 0 else timestamps.getD (i - 1) 0)
                (timestamps.getD i 0) v)))
      (.ok (List.replicate (timestamps.getLastD 0) dflt))

/-- Numpy boolean masking ts[~mask]: keep, in order, exactly the entries
whose mask value is false (numpy requires the two arrays to have equal
length; the callers truncate first). -/
def booleanMaskKeepFalse {α : Type} (ts : List α) (mask : List Bool) : List α :=
  (ts.zip mask).filterMap (fun p => if p.2 then none else some p.1)

/-- Embedding of the pause-removal block shared by load_timeseries
(measurement_processing.py lines 80-85) and
get_simple_ts_from_pickle_file (lines 186-191): truncate both the
decoded stream and the pause mask to the minimum of their lengths, then
keep the entries where the pause mask is not True. -/
def remove_pauses_step {α : Type} (ts : List α) (pause_ts : List Bool) : List α :=
  let min_length := min pause_ts.length ts.length
  booleanMaskKeepFalse (ts.take min_length) (pause_ts.take min_length)

/-- On-disk data of one measurement, as the loading functions of
measurement_processing.py see it: the advertised file list from
process_metadata.json, the per-stream containers (each holding the
change-point pair data/id_series, data/timestamps), and the dedicated
pause_data container. -/
structure MeasurementFiles where
  available_measurement_files : List String
  containers : List (String × (List Int × List Nat))
  pause_container : List Bool × List Nat

/-- Python's x[:-7] if x.endswith(".pickle") else x, working on the
character sequence of the string (Python slices strings by character,
and .pickle is 7 characters). -/
def strip_pickle (x : String) : String :=
  if (String.toList ".pickle").isSuffixOf x.toList then
    String.mk (x.toList.take (x.toList.length - 7))
  else x

/-- Embedding of get_available_ts_for_measurement
(measurement_processing.py lines 35-56): returns the advertised
available_measurement_files with the legacy .pickle suffix stripped
from each entry that carries it. -/
def get_available_ts_for_measurement (m : MeasurementFiles) : List String :=
  m.available_measurement_files.map strip_pickle

/-- Embedding of get_pause_ts_for_measurement (measurement_processing.py
lines 151-166): decode the pause_data container into the dense boolean
pause mask. -/
def get_pause_ts_for_measurement (m : MeasurementFiles) : Except PyErr (List Bool) :=
  get_time_series_for_id_series false m.pause_container.1 m.pause_container.2

/-- Embedding of load_timeseries (measurement_processing.py lines
58-86): raise the stream-not-found Exception when the target name is
absent from the advertised list, otherwise open the container (failing
like h5py.File when the file is missing), decode it, and optionally
remove pauses via the shared truncate-then-mask block. -/
def load_timeseries (m : MeasurementFiles) (target_ts_name : String)
    (remove_pauses : Bool) : Except PyErr (List Int) :=
  if target_ts_name ∉ get_available_ts_for_measurement m then
    .error .streamNotFound
  else
    match m.containers.lookup target_ts_name with
    | none => .error .fileNotFound
    | some (id_series, timestamps) =>
        (get_time_series_for_id_series 0 id_series timestamps).bind (fun ts =>
          if remove_pauses then
            (get_pause_ts_for_measurement m).map
              (fun pause_ts => remove_pauses_step ts pause_ts)
          else .ok ts)

/-- Embedding of the per-measurement loop of extract_data (main.py lines
43-77): each measurement is processed inside try/except, an exception
contributes one logged error line, and the loop always moves on to the
next measurement. -/
def extract_data_driver {M : Type} (measurements : List M)
    (process : M → Except PyErr (List String)) (errLog : M → PyErr → String) :
    List String :=
  measurements.foldl
    (fun logs m =>
      logs ++ (match process m with
               | .ok out => out
               | .error e => [errLog m e]))
    []

/-- Embedding of the region rendering at index.py line 240: the uuid is
looked up in region_uuid_to_name with the fixed fallback
string Unknown Region (Python dict.get with a default). -/
def renderRegion (region_uuid_to_name : List (String × String)) (r : String) :
    String :=
  (region_uuid_to_name.lookup r).getD "Unknown Region"

/-- Embedding of the activity rendering at index.py lines 241-242:
Python evaluates activity_id_to_name_map[a] first (square-bracket dict
indexing, so a missing key raises KeyError, modelled as none); when the
name is Handling it instead returns handling_height_id_to_name_map[h],
again by raising indexing. -/
def renderActivity (activity_id_to_name_map : List (Nat × String))
    (handling_height_id_to_name_map : List (Nat × String)) (a h : Nat) :
    Option String :=
  match activity_id_to_name_map.lookup a with
  | none => none
  | some an =>
      if an = "Handling" then handling_height_id_to_name_map.lookup h
      else some an

/-- Modelled from the spec: the Multi-Stream Synchronizer of spec
section 4.5 has no implementation under src (the spec notes
get_multi_dim_id_series diverged out of the snapshot; the code that
remains, process_measurement_data, only expands streams onto a dense
grid).  Following the spec, the synchronizer truncates all streams to
the minimum length L, forms the joint tuple stream, and compresses it
with the repository's own run-length encoder get_id_series, so that a
joint change point is any index where the tuple of values changes. -/
def synchronize (streams : List (List Int)) (appendFinal : Bool) :
    List (List Int) × List Nat :=
  let L := ((streams.map List.length).min?).getD 0
  let joint := (List.range L).map (fun i => streams.map (fun s => s.getD i 0))
  match get_id_series joint appendFinal with
  | .ok p => p
  | .error _ => ([], [])

/-- Spec-side characterisation of the encoder's start list (spec section
4.2): starts begins with 0, followed by every index i greater than 0
where the dense value differs from its predecessor. -/
def specStarts {α : Type} [DecidableEq α] (d : List α) : List Nat :=
  0 :: (List.range d.length).filter
    (fun i => decide (0 < i) && decide (d[i]? ≠ d[i - 1]?))

/-- Spec-side characterisation of pause removal (spec section 4.4):
after truncating to the common length, return the samples at exactly the
positions where the mask is False, in ascending position order. -/
def specRemovePauses {α : Type} (ts : List α) (mask : List Bool) : List α :=
  ((List.range (min mask.length ts.length)).filter
    (fun i => decide (mask.getD i true = false))).filterMap (fun i => ts[i]?)

/-- Spec-side characterisation of the joint change-point set (spec
section 4.5): the union over all streams of the indices i with
1 <= i < L where the stream's value differs from its predecessor,
sorted and de-duplicated (rendered as one ascending filter of the index
range), with 0 prepended. -/
def specSyncStarts (streams : List (List Int)) (L : Nat) : List Nat :=
  0 :: (List.range L).filter
    (fun i => decide (0 < i) &&
      streams.any (fun s => decide (s.getD i 0 ≠ s.getD (i - 1) 0)))

/-- Proof helper: the value position j holds after a sequence of slice
assignments (a, b, v), starting from x: a later assignment covering j
overwrites an earlier one. -/
def fillVal {α : Type} (j : Nat) : α → List (Nat × Nat × α) → α
  | x, [] => x
  | x, (a, b, v) :: rest => fillVal j (if a ≤ j ∧ j < b then v else x) rest

/-- Proof helper: the slice-assignment steps the decoder's loop performs
for i = 1, 2, ... on a change-point list t0 :: t1 :: ... with values
v1, v2, ...: assign v1 on the slice from t0 to t1, v2 from t1 to t2, and
so on. -/
def mkSteps {α : Type} : List Nat → List α → List (Nat × Nat × α)
  | t0 :: t1 :: ts, v :: vs => (t0, t1, v) :: mkSteps (t1 :: ts) vs
  | _, _ => []

/-- Proof helper: the dense expansion of a change-point list
t0 :: t1 :: ... with values v1, v2, ...: (t1 - t0) copies of v1, then
(t2 - t1) copies of v2, and so on. -/
def expandCP {α : Type} : List Nat → List α → List α
  | t0 :: t1 :: ts, v :: vs => List.replicate (t1 - t0) v ++ expandCP (t1 :: ts) vs
  | _, _ => []

/-- Proof helper: element-wise masking as a single structural recursion,
the common core of remove_pauses_step and specRemovePauses. -/
def maskRec {α : Type} : List α → List Bool → List α
  | x :: xs, b :: bs => if b then maskRec xs bs else x :: maskRec xs bs
  | _, _ => []

/-- Proof helper: the change indices the encoder detects before the
shift by one: every i in range(len(d) - 1) with d[i] != d[i+1]. -/
def changeIdx {α : Type} [DecidableEq α] (d : List α) : List Nat :=
  (List.range (d.length - 1)).filter (fun i => decide (d[i]? ≠ d[i + 1]?))

/-- Proof helper: the encoder's timestamps before the optional final
sentinel: 0 followed by the change indices shifted up by one. -/
def changeTimestamps {α : Type} [DecidableEq α] (d : List α) : List Nat :=
  0 :: (changeIdx d).map (· + 1)

/-- Proof helper: the encoder's id series, the input selected at the
timestamps. -/
def encIds {α : Type} [DecidableEq α] (d : List α) : List α :=
  (changeTimestamps d).filterMap (fun t => d[t]?)

/-- Proof helper: the encoder's timestamps with the final sentinel
len(d) appended. -/
def fullTs {α : Type} [DecidableEq α] (d : List α) : List Nat :=
  changeTimestamps d ++ [d.length]

example : get_id_series ([5, 5, 5, 7, 7] : List Int) false =
    .ok ([5, 7], [0, 3]) := rfl
example : get_id_series ([5, 5, 5, 7, 7] : List Int) true =
    .ok ([5, 7], [0, 3, 5]) := rfl
example : get_time_series_for_id_series (0 : Int) [5, 7] [0, 3, 5] =
    .ok [5, 5, 5, 7, 7] := rfl
example : get_time_series_for_id_series (0 : Int) [5, 7] [0, 3] =
    .ok [5, 5, 5] := rfl
example : remove_pauses_step ([10, 10, 20, 20, 30] : List Int)
    [false, false, true, true, false] = [10, 10, 30] := rfl
example : synchronize [[1, 1, 2, 2], [9, 9, 9, 8]] false =
    ([[1, 9], [2, 9], [2, 8]], [0, 2, 3]) := rfl

/-- A filterMap whose function is total on the list is a map. -/
lemma filterMap_eq_map_of_forall {α β : Type} :
    ∀ (l : List α) (f : α → Option β) (g : α → β),
      (∀ x ∈ l, f x = some (g x)) → l.filterMap f = l.map g := by
  intro l f g
  induction l with
  | nil => intro _; rfl
  | cons x xs ih =>
      intro h
      rw [List.filterMap_cons, List.map_cons, h x (List.mem_cons_self x xs),
        ih (fun y hy => h y (List.mem_cons_of_mem x hy))]

/-- The truncate-then-mask block of the source equals the structural
recursion maskRec. -/
lemma remove_pauses_step_eq_maskRec {α : Type} :
    ∀ (ts : List α) (mask : List Bool),
      remove_pauses_step ts mask = maskRec ts mask := by
  intro ts
  induction ts with
  | nil =>
      intro mask
      cases mask <;> simp [remove_pauses_step, booleanMaskKeepFalse, maskRec]
  | cons x xs ih =>
      intro mask
      cases mask with
      | nil => simp [remove_pauses_step, booleanMaskKeepFalse, maskRec]
      | cons b bs =>
          have h := ih bs
          simp only [remove_pauses_step, booleanMaskKeepFalse] at h ⊢
          rw [List.length_cons, List.length_cons, Nat.succ_min_succ,
            List.take_succ_cons, List.take_succ_cons, List.zip_cons_cons,
            List.filterMap_cons]
          cases b with
          | false => simp [maskRec, h]
          | true => simp [maskRec, h]

/-- The spec-side description of pause removal also equals maskRec. -/
lemma specRemovePauses_eq_maskRec {α : Type} :
    ∀ (ts : List α) (mask : List Bool),
      specRemovePauses ts mask = maskRec ts mask := by
  intro ts
  induction ts with
  | nil => intro mask; cases mask <;> simp [specRemovePauses, maskRec]
  | cons x xs ih =>
      intro mask
      cases mask with
      | nil => simp [specRemovePauses, maskRec]
      | cons b bs =>
          have h := ih bs
          simp only [specRemovePauses] at h ⊢
          rw [List.length_cons, List.length_cons, Nat.succ_min_succ,
            List.range_succ_eq_map, List.filter_cons, List.filter_map]
          have hpred : ((fun i => decide ((b :: bs).getD i true = false)) ∘ Nat.succ)
              = (fun i => decide (bs.getD i true = false)) := by
            funext i
            simp [Function.comp, List.getD_cons_succ]
          rw [hpred]
          cases b with
          | false =>
              rw [if_pos (show decide (((false : Bool) :: bs).getD 0 true = false)
                = true from rfl)]
              rw [List.filterMap_cons]
              simp only [List.getElem?_cons_zero, List.filterMap_map]
              rw [show ((fun t => (x :: xs)[t]?) ∘ Nat.succ) = (fun t => xs[t]?)
                from funext (fun t => List.getElem?_cons_succ), h]
              simp [maskRec]
          | true =>
              rw [if_neg (show ¬ (decide (((true : Bool) :: bs).getD 0 true = false)
                = true) from by simp)]
              rw [List.filterMap_map]
              rw [show ((fun t => (x :: xs)[t]?) ∘ Nat.succ) = (fun t => xs[t]?)
                from funext (fun t => List.getElem?_cons_succ), h]
              simp [maskRec]

/-- maskRec of a mask against itself keeps exactly its False entries. -/
lemma maskRec_self_eq_replicate :
    ∀ (mask : List Bool),
      maskRec mask mask = List.replicate (mask.count false) false := by
  intro mask
  induction mask with
  | nil => rfl
  | cons b bs ih =>
      cases b <;> simp [maskRec, ih, List.count_cons, List.replicate_succ]

/-- An all-False mask at least as long as the stream keeps everything. -/
lemma maskRec_replicate_false {α : Type} :
    ∀ (ts : List α) (k : Nat), ts.length ≤ k →
      maskRec ts (List.replicate k false) = ts := by
  intro ts
  induction ts with
  | nil => intro k _; cases k <;> rfl
  | cons x xs ih =>
      intro k hk
      cases k with
      | zero => simp at hk
      | succ k' =>
          rw [List.replicate_succ]
          simp only [maskRec, if_neg Bool.false_ne_true]
          rw [ih k' (by simpa using hk)]

/-- Masking never keeps more entries than the mask has False entries. -/
lemma length_maskRec_le {α : Type} :
    ∀ (ts : List α) (mask : List Bool),
      (maskRec ts mask).length ≤ mask.count false := by
  intro ts
  induction ts with
  | nil => intro mask; cases mask <;> simp [maskRec]
  | cons x xs ih =>
      intro mask
      cases mask with
      | nil => simp [maskRec]
      | cons b bs =>
          cases b with
          | false =>
              simp only [maskRec, if_neg Bool.false_ne_true, List.length_cons]
              simpa [List.count_cons] using Nat.succ_le_succ (ih bs)
          | true =>
              simp only [maskRec, if_pos rfl]
              simpa [List.count_cons] using ih bs

/-- C4: loading with removePauses truncates the stream and the mask to
their common length and then returns exactly the samples at the
positions where the mask is False, in their original relative order; in
particular mask [F,F,T,T,F] applied to [10,10,20,20,30] gives
[10,10,30]. -/
theorem remove_pauses_keeps_unmasked_samples :
    (∀ (α : Type) (ts : List α) (mask : List Bool),
      remove_pauses_step ts mask = specRemovePauses ts mask) ∧
    remove_pauses_step ([10, 10, 20, 20, 30] : List Int)
      [false, false, true, true, false] = [10, 10, 30] := by
  constructor
  · intro α ts mask
    rw [remove_pauses_step_eq_maskRec, specRemovePauses_eq_maskRec]
  · rfl

/-- C8 counterexample: applying pause removal twice with the same mask
is not the same as applying it once: with stream [1,2] and mask [T,F]
one application keeps [2], but a second application with the same mask
truncates the mask to [T] and deletes everything. -/
theorem pause_removal_not_idempotent_same_mask :
    remove_pauses_step ([1, 2] : List Int) [true, false] = [2] ∧
    remove_pauses_step (remove_pauses_step ([1, 2] : List Int) [true, false])
      [true, false] = [] := by
  constructor <;> rfl

/-- C8 amended: pause removal is idempotent when the second application
uses the mask in the form it has after the first pass, namely the mask
with its own pause entries removed (pause removal applied to the mask
itself); with the unmodified mask a second application can delete
further samples. -/
theorem pause_removal_idempotent_with_filtered_mask :
    ∀ (α : Type) (ts : List α) (mask : List Bool),
      remove_pauses_step (remove_pauses_step ts mask)
        (remove_pauses_step mask mask) = remove_pauses_step ts mask := by
  intro α ts mask
  rw [remove_pauses_step_eq_maskRec mask mask, maskRec_self_eq_replicate,
    remove_pauses_step_eq_maskRec ts mask,
    remove_pauses_step_eq_maskRec (maskRec ts mask),
    maskRec_replicate_false _ _ (length_maskRec_le ts mask)]

/-- C9: get_id_series raises the empty-input error exactly when the
dense input array is empty. -/
theorem get_id_series_empty_error_iff {α : Type} [DecidableEq α]
    (d : List α) (ab : Bool) :
    get_id_series d ab = .error .emptyTimeSeriesException ↔ d = [] := by
  cases d with
  | nil => simp [get_id_series]
  | cons x xs => simp [get_id_series]

/-- C10: when either the id series or the timestamps input is empty the
decoder returns an empty array and raises no error. -/
theorem decode_empty_inputs_ok (α : Type) (dflt : α) (id_series : List α)
    (timestamps : List Nat) (h : id_series = [] ∨ timestamps = []) :
    get_time_series_for_id_series dflt id_series timestamps = .ok [] := by
  unfold get_time_series_for_id_series
  rcases h with h | h <;> subst h <;> simp

/-- C10 witness at a concrete input. -/
theorem decode_empty_inputs_ok_witness :
    get_time_series_for_id_series (0 : Int) [] [0, 3] = .ok [] :=
  decode_empty_inputs_ok Int 0 [] [0, 3] (Or.inl rfl)

/-- C5 counterexample: with an activity map that has no entry for id 99,
the report code raises a KeyError (modelled as none) instead of
rendering a fallback label. -/
theorem unknown_activity_id_raises :
    renderActivity [(1, "Walk")] [] 99 0 = none := rfl

/-- C5 amended: only unknown region uuids render as the fixed fallback
label Unknown Region; an unknown activity id is looked up with plain
dict indexing and raises a KeyError instead of rendering a label. -/
theorem unknown_region_fallback_unknown_activity_raises
    (regionMap : List (String × String)) (actMap hhMap : List (Nat × String))
    (r : String) (a h : Nat)
    (hr : regionMap.lookup r = none) (ha : actMap.lookup a = none) :
    renderRegion regionMap r = "Unknown Region" ∧
    renderActivity actMap hhMap a h = none := by
  constructor
  · unfold renderRegion
    rw [hr]
    rfl
  · unfold renderActivity
    rw [ha]

/-- C5 amended witness at concrete inputs. -/
theorem unknown_region_fallback_unknown_activity_raises_witness :
    renderRegion [] "r1" = "Unknown Region" ∧
    renderActivity [(1, "Walk")] [] 99 0 = none :=
  unknown_region_fallback_unknown_activity_raises [] [(1, "Walk")] [] "r1" 99 0
    rfl rfl

/-- A left fold that appends each item's contribution is the flattened
map of the contributions. -/
lemma foldl_append_eq_flatten {β γ : Type} (F : β → List γ) :
    ∀ (l : List β) (acc : List γ),
      l.foldl (fun logs m => logs ++ F m) acc = acc ++ (l.map F).flatten := by
  intro l
  induction l with
  | nil => intro acc; simp
  | cons m ms ih => intro acc; simp [List.foldl_cons, ih, List.append_assoc]

/-- C6: requesting a stream name absent from the measurement's
advertised available-files metadata makes load_timeseries fail with the
stream-not-found error, and the batch driver turns each measurement's
outcome into its own log lines independently, so an error in one
measurement contributes one log line while every sibling measurement is
still processed. -/
theorem stream_not_found_and_isolation (m : MeasurementFiles)
    (target : String) (rp : Bool)
    (habs : target ∉ get_available_ts_for_measurement m) :
    load_timeseries m target rp = .error .streamNotFound ∧
    ∀ (M : Type) (measurements : List M)
      (process : M → Except PyErr (List String))
      (errLog : M → PyErr → String),
      extract_data_driver measurements process errLog =
        (measurements.map (fun mm =>
          match process mm with
          | .ok out => out
          | .error e => [errLog mm e])).flatten := by
  constructor
  · unfold load_timeseries
    rw [if_pos habs]
  · intro M measurements process errLog
    unfold extract_data_driver
    rw [foldl_append_eq_flatten]
    rfl

/-- C6 witness at a concrete input: a measurement advertising only
region_ts_data cannot serve step_counter_data. -/
theorem stream_not_found_and_isolation_witness :
    load_timeseries ⟨["region_ts_data.pickle"], [], ([], [])⟩
      "step_counter_data" true = .error .streamNotFound ∧
    ∀ (M : Type) (measurements : List M)
      (process : M → Except PyErr (List String))
      (errLog : M → PyErr → String),
      extract_data_driver measurements process errLog =
        (measurements.map (fun mm =>
          match process mm with
          | .ok out => out
          | .error e => [errLog mm e])).flatten :=
  stream_not_found_and_isolation ⟨["region_ts_data.pickle"], [], ([], [])⟩
    "step_counter_data" true (by decide)

lemma length_sliceAssign {α : Type} (arr : List α) (a b : Nat) (v : α) :
    (sliceAssign arr a b v).length = arr.length := by
  simp [sliceAssign]

lemma getElem?_sliceAssign {α : Type} (arr : List α) (a b : Nat) (v : α)
    (j : Nat) :
    (sliceAssign arr a b v)[j]?
      = arr[j]?.map (fun x => if a ≤ j ∧ j < b then v else x) := by
  simp [sliceAssign, List.getElem?_mapIdx]

/-- A bind-threaded fold over Except whose every step succeeds is the
pure fold of the step results. -/
lemma foldl_bind_ok {α E : Type} (f : Nat → List α → Except E (List α))
    (g : Nat → List α → List α) :
    ∀ (l : List Nat) (a : List α),
      (∀ i ∈ l, ∀ arr, f i arr = .ok (g i arr)) →
      l.foldl (fun acc i => acc.bind (f i)) (Except.ok a : Except E (List α))
        = .ok (l.foldl (fun arr i => g i arr) a) := by
  intro l
  induction l with
  | nil => intro a _; rfl
  | cons i is ih =>
      intro a h
      rw [List.foldl_cons, List.foldl_cons,
        show (Except.ok a : Except E (List α)).bind (f i) = f i a from rfl,
        h i (List.mem_cons_self i is) a]
      exact ih (g i a) (fun j hj arr => h j (List.mem_cons_of_mem i hj) arr)

/-- A bind-threaded fold over Except keeps an error. -/
lemma foldl_bind_error {α E : Type} (f : Nat → List α → Except E (List α))
    (e : E) :
    ∀ (l : List Nat),
      l.foldl (fun acc i => acc.bind (f i))
        (Except.error e : Except E (List α)) = .error e := by
  intro l
  induction l with
  | nil => rfl
  | cons i is ih =>
      rw [List.foldl_cons]
      exact ih

/-- Pointwise value of a fold of slice assignments. -/
lemma foldl_sliceAssign_getElem? {α : Type} :
    ∀ (steps : List (Nat × Nat × α)) (arr : List α) (j : Nat),
      (steps.foldl (fun arr s => sliceAssign arr s.1 s.2.1 s.2.2) arr)[j]?
        = arr[j]?.map (fun x => fillVal j x steps) := by
  intro steps
  induction steps with
  | nil =>
      intro arr j
      simp [fillVal]
  | cons s ss ih =>
      intro arr j
      rcases s with ⟨a, b, v⟩
      rw [List.foldl_cons, ih, getElem?_sliceAssign, Option.map_map]
      rfl

/-- Length is preserved by a fold of slice assignments. -/
lemma length_foldl_sliceAssign {α : Type} :
    ∀ (steps : List (Nat × Nat × α)) (arr : List α),
      (steps.foldl (fun arr s => sliceAssign arr s.1 s.2.1 s.2.2) arr).length
        = arr.length := by
  intro steps
  induction steps with
  | nil => intro arr; rfl
  | cons s ss ih =>
      intro arr
      rw [List.foldl_cons, ih, length_sliceAssign]

/-- A position covered by no step keeps its value. -/
lemma fillVal_of_not_covered {α : Type} :
    ∀ (steps : List (Nat × Nat × α)) (j : Nat) (x : α),
      (∀ s ∈ steps, ¬(s.1 ≤ j ∧ j < s.2.1)) → fillVal j x steps = x := by
  intro steps
  induction steps with
  | nil => intro j x _; rfl
  | cons s ss ih =>
      intro j x hn
      rcases s with ⟨a, b, v⟩
      rw [show fillVal j x ((a, b, v) :: ss)
        = fillVal j (if a ≤ j ∧ j < b then v else x) ss from rfl,
        if_neg (hn (a, b, v) (List.mem_cons_self _ _))]
      exact ih j x (fun s hs => hn s (List.mem_cons_of_mem _ hs))

/-- Every step built from a chain of change points starts no earlier
than the head change point. -/
lemma mkSteps_fst_ge {α : Type} :
    ∀ (rest : List Nat) (t0 : Nat) (ids : List α),
      List.Chain' (· ≤ ·) (t0 :: rest) →
      ∀ s ∈ mkSteps (t0 :: rest) ids, t0 ≤ s.1 := by
  intro rest
  induction rest with
  | nil =>
      intro t0 ids _ s hs
      cases ids <;> simp [mkSteps] at hs
  | cons t1 ts ih =>
      intro t0 ids hchain s hs
      cases ids with
      | nil => simp [mkSteps] at hs
      | cons v vs =>
          rw [show mkSteps (t0 :: t1 :: ts) (v :: vs)
            = (t0, t1, v) :: mkSteps (t1 :: ts) vs from rfl] at hs
          rcases List.mem_cons.mp hs with h | h
          · rw [h]
          · exact le_trans (List.chain'_cons.mp hchain).1
              (ih t1 vs (List.chain'_cons.mp hchain).2 s h)

/-- The head of a chain of change points is at most the last one. -/
lemma chain_head_le_getLastD :
    ∀ (rest : List Nat) (t0 : Nat), List.Chain' (· ≤ ·) (t0 :: rest) →
      t0 ≤ (t0 :: rest).getLastD 0 := by
  intro rest
  induction rest with
  | nil => intro t0 _; exact le_refl t0
  | cons t1 ts ih =>
      intro t0 hchain
      exact le_trans (List.chain'_cons.mp hchain).1
        (ih t1 (List.chain'_cons.mp hchain).2)

/-- Length of the dense expansion of a chain of change points. -/
lemma expandCP_length {α : Type} :
    ∀ (rest : List Nat) (t0 : Nat) (ids : List α),
      List.Chain' (· ≤ ·) (t0 :: rest) → ids.length = rest.length →
      (expandCP (t0 :: rest) ids).length = (t0 :: rest).getLastD 0 - t0 := by
  intro rest
  induction rest with
  | nil =>
      intro t0 ids _ hlen
      cases ids with
      | nil => simp [expandCP]
      | cons v vs => simp at hlen
  | cons t1 ts ih =>
      intro t0 ids hchain hlen
      cases ids with
      | nil => simp at hlen
      | cons v vs =>
          have h01 : t0 ≤ t1 := (List.chain'_cons.mp hchain).1
          have hchain' : List.Chain' (· ≤ ·) (t1 :: ts) :=
            (List.chain'_cons.mp hchain).2
          have h1L : t1 ≤ (t1 :: ts).getLastD 0 :=
            chain_head_le_getLastD ts t1 hchain'
          rw [show expandCP (t0 :: t1 :: ts) (v :: vs)
            = List.replicate (t1 - t0) v ++ expandCP (t1 :: ts) vs from rfl,
            List.length_append, List.length_replicate,
            ih t1 vs hchain' (by simpa using hlen),
            show (t0 :: t1 :: ts).getLastD 0 = (t1 :: ts).getLastD 0 from rfl]
          omega

/-- Pointwise: the dense expansion at position j - t0 equals the value
the decoder's slice assignments leave at position j, for any initial
value x. -/
lemma expandCP_getElem?_fillVal {α : Type} :
    ∀ (rest : List Nat) (t0 : Nat) (ids : List α) (x : α) (j : Nat),
      List.Chain' (· ≤ ·) (t0 :: rest) → ids.length = rest.length →
      t0 ≤ j → j < (t0 :: rest).getLastD 0 →
      (expandCP (t0 :: rest) ids)[j - t0]?
        = some (fillVal j x (mkSteps (t0 :: rest) ids)) := by
  intro rest
  induction rest with
  | nil =>
      intro t0 ids x j _ _ hle hlt
      exact absurd hlt (by simpa using Nat.not_lt.mpr hle)
  | cons t1 ts ih =>
      intro t0 ids x j hchain hlen hle hlt
      cases ids with
      | nil => simp at hlen
      | cons v vs =>
          have hlen' : vs.length = ts.length := by simpa using hlen
          have h01 : t0 ≤ t1 := (List.chain'_cons.mp hchain).1
          have hchain' : List.Chain' (· ≤ ·) (t1 :: ts) :=
            (List.chain'_cons.mp hchain).2
          rw [show expandCP (t0 :: t1 :: ts) (v :: vs)
            = List.replicate (t1 - t0) v ++ expandCP (t1 :: ts) vs from rfl,
            show mkSteps (t0 :: t1 :: ts) (v :: vs)
            = (t0, t1, v) :: mkSteps (t1 :: ts) vs from rfl,
            show fillVal j x ((t0, t1, v) :: mkSteps (t1 :: ts) vs)
            = fillVal j (if t0 ≤ j ∧ j < t1 then v else x)
                (mkSteps (t1 :: ts) vs) from rfl]
          by_cases hj : j < t1
          · rw [if_pos ⟨hle, hj⟩,
              fillVal_of_not_covered _ _ _ (fun s hs hcov =>
                absurd hcov.1 (Nat.not_le.mpr
                  (lt_of_lt_of_le hj (mkSteps_fst_ge ts t1 vs hchain' s hs)))),
              List.getElem?_append]
            have hidx : j - t0 < t1 - t0 := by omega
            rw [if_pos (by simpa using hidx), List.getElem?_replicate,
              if_pos hidx]
          · rw [if_neg (fun hc => hj hc.2), List.getElem?_append]
            have hj' : t1 ≤ j := Nat.not_lt.mp hj
            have hge : ¬ (j - t0 < (List.replicate (t1 - t0) v).length) := by
              rw [List.length_replicate]
              omega
            rw [if_neg hge,
              show j - t0 - (List.replicate (t1 - t0) v).length = j - t1 by
                rw [List.length_replicate]; omega]
            exact ih t1 vs x j hchain' hlen' hj'
              (by rwa [show (t0 :: t1 :: ts).getLastD 0
                = (t1 :: ts).getLastD 0 from rfl] at hlt)

/-- A non-empty list's optional last element is its defaulted last. -/
lemma getLast?_eq_some_getLastD {α : Type} (l : List α) (d : α) (h : l ≠ []) :
    l.getLast? = some (l.getLastD d) := by
  rw [List.getLastD_eq_getLast?]
  cases hl : l.getLast? with
  | none => exact absurd (List.getLast?_eq_none_iff.mp hl) h
  | some a => rfl

/-- When the timestamps list is at most one longer than the id list (and
both are non-empty) the decoder performs every slice assignment and
succeeds: no lookup raises IndexError. -/
lemma decode_ok_of_short {α : Type} (dflt : α) (ids : List α) (ts : List Nat)
    (hids : ids ≠ []) (hts : ts ≠ []) (hlen : ts.length ≤ ids.length + 1) :
    get_time_series_for_id_series dflt ids ts
      = .ok ((List.range ts.length).foldl
          (fun arr i => sliceAssign arr
            (if i = 0 then ts.getLastD 0 else ts.getD (i - 1) 0)
            (ts.getD i 0)
            (if i = 0 then ids.getLastD dflt else ids.getD (i - 1) dflt))
          (List.replicate (ts.getLastD 0) dflt)) := by
  unfold get_time_series_for_id_series
  rw [if_neg (by
    simp only [List.length_eq_zero]
    rintro (h | h) <;> [exact hts h; exact hids h])]
  apply foldl_bind_ok
  intro i hi arr
  by_cases h0 : i = 0
  · subst h0
    rw [if_pos rfl, getLast?_eq_some_getLastD ids dflt hids]
    rfl
  · have hi1 : i - 1 < ids.length := by
      have := List.mem_range.mp hi
      omega
    simp only [if_neg h0]
    rw [List.getElem?_eq_getElem hi1,
      show ids[i - 1] = ids.getD (i - 1) dflt from
        (List.getD_eq_getElem ids dflt hi1).symm]

/-- The fold of computed slice assignments is the fold over the listed
steps. -/
lemma foldl_sliceAssign_fn_eq {α : Type} (A B : Nat → Nat) (V : Nat → α)
    (l : List Nat) (arr : List α) :
    l.foldl (fun arr i => sliceAssign arr (A i) (B i) (V i)) arr
      = (l.map (fun i => (A i, B i, V i))).foldl
          (fun arr s => sliceAssign arr s.1 s.2.1 s.2.2) arr :=
  (List.foldl_map (fun i => (A i, B i, V i))
    (fun arr s => sliceAssign arr s.1 s.2.1 s.2.2) l arr).symm

/-- C3 counterexample: the decoder performs no malformed-series
validation.  With ids [5,7] and starts [0,3,5] the id count (2) differs
from the start count (3), yet decoding succeeds (this is in fact the
well-formed sentinel layout); with starts [3,0], which are not strictly
increasing, decoding also returns normally instead of raising any
error. -/
theorem decode_no_malformed_validation :
    get_time_series_for_id_series (0 : Int) [5, 7] [0, 3, 5]
      = .ok [5, 5, 5, 7, 7] ∧
    get_time_series_for_id_series (0 : Int) [1, 2] [3, 0] = .ok [] := by
  constructor <;> rfl

/-- C3 amended: get_time_series_for_id_series has no MalformedSeries
check (no such exception exists in the repository).  For non-empty
inputs it returns normally -- an array of length starts[-1] -- whenever
len(starts) <= len(ids) + 1, regardless of monotonicity or of the
id/start count relation; only when len(starts) > len(ids) + 1 does it
fail, and then with the generic IndexError of the out-of-range id
lookup. -/
theorem decode_malformed_behaviour {α : Type} (dflt : α) (ids : List α)
    (ts : List Nat) (hids : ids ≠ []) (hts : ts ≠ []) :
    (ts.length ≤ ids.length + 1 →
      ∃ out, get_time_series_for_id_series dflt ids ts = .ok out ∧
        out.length = ts.getLastD 0) ∧
    (ids.length + 1 < ts.length →
      get_time_series_for_id_series dflt ids ts = .error .indexError) := by
  constructor
  · intro hlen
    refine ⟨_, decode_ok_of_short dflt ids ts hids hts hlen, ?_⟩
    rw [foldl_sliceAssign_fn_eq, length_foldl_sliceAssign,
      List.length_replicate]
  · intro hlt
    unfold get_time_series_for_id_series
    rw [if_neg (by
      simp only [List.length_eq_zero]
      rintro (h | h) <;> [exact hts h; exact hids h])]
    have hok := foldl_bind_ok
      (fun i arr => match (if i = 0 then ids.getLast? else ids[i - 1]?) with
        | none => Except.error PyErr.indexError
        | some v => Except.ok (sliceAssign arr
            (if i = 0 then ts.getLastD 0 else ts.getD (i - 1) 0)
            (ts.getD i 0) v))
      (fun i arr => sliceAssign arr
        (if i = 0 then ts.getLastD 0 else ts.getD (i - 1) 0)
        (ts.getD i 0)
        (if i = 0 then ids.getLastD dflt else ids.getD (i - 1) dflt))
      (List.range (ids.length + 1)) (List.replicate (ts.getLastD 0) dflt)
      (by
        intro i hi arr
        dsimp only
        by_cases h0 : i = 0
        · subst h0
          rw [if_pos rfl, getLast?_eq_some_getLastD ids dflt hids]
          rfl
        · have hi1 : i - 1 < ids.length := by
            have := List.mem_range.mp hi
            omega
          simp only [if_neg h0]
          rw [List.getElem?_eq_getElem hi1,
            show ids[i - 1] = ids.getD (i - 1) dflt from
              (List.getD_eq_getElem ids dflt hi1).symm])
    rw [show ts.length = (ids.length + 1 + 1) + (ts.length - (ids.length + 2))
        from by omega,
      List.range_add, List.foldl_append, List.range_succ, List.foldl_append,
      hok]
    rw [show (List.foldl (fun acc i =>
          acc.bind (fun arr =>
            match (if i = 0 then ids.getLast? else ids[i - 1]?) with
            | none => Except.error PyErr.indexError
            | some v => Except.ok (sliceAssign arr
                (if i = 0 then ts.getLastD 0 else ts.getD (i - 1) 0)
                (ts.getD i 0) v)))
          (Except.ok ((List.range (ids.length + 1)).foldl
            (fun arr i => sliceAssign arr
              (if i = 0 then ts.getLastD 0 else ts.getD (i - 1) 0)
              (ts.getD i 0)
              (if i = 0 then ids.getLastD dflt else ids.getD (i - 1) dflt))
            (List.replicate (ts.getLastD 0) dflt)))
          [ids.length + 1])
        = (Except.error PyErr.indexError : Except PyErr (List α)) from by
      rw [List.foldl_cons, List.foldl_nil]
      rw [show ((if ids.length + 1 = 0 then ids.getLast?
          else ids[ids.length + 1 - 1]?) : Option α) = none from by
        rw [if_neg (Nat.succ_ne_zero _)]
        exact List.getElem?_eq_none (by omega)]
      rfl]
    exact foldl_bind_error _ _ _

/-- C3 amended witness at a concrete input. -/
theorem decode_malformed_behaviour_witness :
    ((([0, 3, 5] : List Nat).length ≤ ([5, 7] : List Int).length + 1 →
      ∃ out, get_time_series_for_id_series (0 : Int) [5, 7] [0, 3, 5]
        = .ok out ∧ out.length = ([0, 3, 5] : List Nat).getLastD 0) ∧
    (([5, 7] : List Int).length + 1 < ([0, 3, 5] : List Nat).length →
      get_time_series_for_id_series (0 : Int) [5, 7] [0, 3, 5]
        = .error .indexError)) :=
  decode_malformed_behaviour 0 [5, 7] [0, 3, 5] (by decide) (by decide)

/-- On a non-empty input the encoder returns its id series and
timestamps. -/
lemma get_id_series_eq {α : Type} [DecidableEq α] (d : List α) (h : d ≠ [])
    (ab : Bool) :
    get_id_series d ab
      = .ok (encIds d,
          if ab then changeTimestamps d ++ [d.length]
          else changeTimestamps d) := by
  unfold get_id_series encIds changeTimestamps changeIdx
  rw [if_neg (fun hc => h (List.length_eq_zero.mp hc))]

/-- Recursion law for the change indices under a cons. -/
lemma changeIdx_cons_cons {α : Type} [DecidableEq α] (a h : α) (t : List α) :
    changeIdx (a :: h :: t)
      = (if a = h then [] else [0]) ++ (changeIdx (h :: t)).map (· + 1) := by
  unfold changeIdx
  rw [show (a :: h :: t).length - 1 = t.length + 1 from by simp,
    show (h :: t).length - 1 = t.length from by simp,
    List.range_succ_eq_map, List.filter_cons, List.filter_map]
  have hpred : ((fun i => decide ((a :: h :: t)[i]? ≠ (a :: h :: t)[i + 1]?))
      ∘ Nat.succ) = (fun i => decide ((h :: t)[i]? ≠ (h :: t)[i + 1]?)) := by
    funext i
    simp [Function.comp]
  rw [hpred, show (Nat.succ : Nat → Nat) = (· + 1) from funext (fun n => rfl)]
  by_cases hah : a = h
  · rw [if_pos hah,
      if_neg (show ¬ (decide ((a :: h :: t)[0]? ≠ (a :: h :: t)[0 + 1]?) = true)
        from by simp [hah]),
      List.nil_append]
  · rw [if_neg hah,
      if_pos (show decide ((a :: h :: t)[0]? ≠ (a :: h :: t)[0 + 1]?) = true
        from by simp [hah]),
      List.cons_append, List.nil_append]

/-- The encoder's id series always starts with the input's head. -/
lemma encIds_cons {α : Type} [DecidableEq α] (x : α) (xs : List α) :
    encIds (x :: xs)
      = x :: (changeIdx (x :: xs)).filterMap (fun i => xs[i]?) := by
  unfold encIds changeTimestamps
  rw [List.filterMap_cons]
  simp only [List.getElem?_cons_zero]
  rw [List.filterMap_map,
    show ((fun t => (x :: xs)[t]?) ∘ (· + 1)) = (fun i => xs[i]?)
      from funext (fun i => List.getElem?_cons_succ)]

/-- Extending the leading run does not change the id series. -/
lemma encIds_cons_cons_eq {α : Type} [DecidableEq α] (a h : α) (t : List α)
    (hah : a = h) : encIds (a :: h :: t) = encIds (h :: t) := by
  rw [encIds_cons a (h :: t), encIds_cons h t, changeIdx_cons_cons,
    if_pos hah, List.nil_append, List.filterMap_map, hah,
    show ((fun i => (h :: t)[i]?) ∘ (· + 1)) = (fun i => t[i]?)
      from funext (fun i => List.getElem?_cons_succ)]

/-- A changed head prepends a new id. -/
lemma encIds_cons_cons_ne {α : Type} [DecidableEq α] (a h : α) (t : List α)
    (hah : a ≠ h) : encIds (a :: h :: t) = a :: encIds (h :: t) := by
  rw [encIds_cons a (h :: t), encIds_cons h t, changeIdx_cons_cons,
    if_neg hah, List.cons_append, List.nil_append, List.filterMap_cons]
  simp only [List.getElem?_cons_zero]
  rw [List.filterMap_map,
    show ((fun i => (h :: t)[i]?) ∘ (· + 1)) = (fun i => t[i]?)
      from funext (fun i => List.getElem?_cons_succ)]

/-- The sentinel timestamps start with 0 and have a non-empty tail. -/
lemma fullTs_structure {α : Type} [DecidableEq α] (d : List α) :
    fullTs d = 0 :: ((changeIdx d).map (· + 1) ++ [d.length]) := rfl

/-- Extending the leading run shifts the tail of the sentinel
timestamps. -/
lemma fullTs_cons_cons_eq {α : Type} [DecidableEq α] (a h : α) (t : List α)
    (hah : a = h) :
    fullTs (a :: h :: t) = 0 :: ((fullTs (h :: t)).tail).map (· + 1) := by
  unfold fullTs changeTimestamps
  rw [changeIdx_cons_cons, if_pos hah, List.nil_append]
  simp [List.map_map, Function.comp, List.length_cons]

/-- A changed head prepends change point 1 to the shifted sentinel
timestamps. -/
lemma fullTs_cons_cons_ne {α : Type} [DecidableEq α] (a h : α) (t : List α)
    (hah : a ≠ h) :
    fullTs (a :: h :: t) = 0 :: (fullTs (h :: t)).map (· + 1) := by
  unfold fullTs changeTimestamps
  rw [changeIdx_cons_cons, if_neg hah]
  simp [List.map_map, Function.comp, List.length_cons]

/-- Shifting all change points by one does not change the expansion. -/
lemma expandCP_map_succ {α : Type} :
    ∀ (ts : List Nat) (ids : List α),
      expandCP (ts.map (· + 1)) ids = expandCP ts ids := by
  intro ts
  induction ts with
  | nil => intro ids; cases ids <;> rfl
  | cons t0 rest ih =>
      intro ids
      cases rest with
      | nil => cases ids <;> rfl
      | cons t1 ts' =>
          cases ids with
          | nil => rfl
          | cons v vs =>
              rw [List.map_cons, List.map_cons,
                show expandCP ((t0 + 1) :: (t1 + 1) :: ts'.map (· + 1)) (v :: vs)
                  = List.replicate ((t1 + 1) - (t0 + 1)) v
                      ++ expandCP ((t1 + 1) :: ts'.map (· + 1)) vs from rfl,
                show (t1 + 1) - (t0 + 1) = t1 - t0 from by omega,
                show ((t1 + 1) :: ts'.map (· + 1)) = (t1 :: ts').map (· + 1)
                  from rfl,
                ih vs]
              rfl

/-- A non-empty list splits into a head and a tail. -/
lemma exists_cons_of_ne_nil {β : Type} (l : List β) (h : l ≠ []) :
    ∃ x xs, l = x :: xs := by
  cases l with
  | nil => exact absurd rfl h
  | cons x xs => exact ⟨x, xs, rfl⟩

/-- Decoding the encoder's own output reproduces the input: expanding
the sentinel timestamps with the id series gives back the dense
array. -/
lemma expandCP_fullTs_encIds {α : Type} [DecidableEq α] :
    ∀ (d : List α), d ≠ [] → expandCP (fullTs d) (encIds d) = d := by
  intro d
  induction d with
  | nil => intro h; exact absurd rfl h
  | cons a e ih =>
      intro _
      cases e with
      | nil => rfl
      | cons h t =>
          have ihe := ih (by simp)
          by_cases hah : a = h
          · subst hah
            obtain ⟨ids1, hi1⟩ : ∃ ids1, encIds (a :: t) = a :: ids1 :=
              ⟨_, encIds_cons a t⟩
            obtain ⟨r0, r', hr⟩ := exists_cons_of_ne_nil
              ((changeIdx (a :: t)).map (· + 1) ++ [(a :: t).length])
              (by simp)
            have htail : (fullTs (a :: t)).tail = r0 :: r' := by
              rw [fullTs_structure (a :: t), hr]
              rfl
            rw [fullTs_cons_cons_eq a a t rfl, encIds_cons_cons_eq a a t rfl,
              htail, hi1, List.map_cons]
            simp only [expandCP]
            have hmapc : ((r0 + 1) :: r'.map (· + 1))
                = (r0 :: r').map (· + 1) := rfl
            rw [hmapc, expandCP_map_succ]
            have hihe : List.replicate (r0 - 0) a
                ++ expandCP (r0 :: r') ids1 = a :: t := by
              rw [fullTs_structure (a :: t), hr, hi1] at ihe
              simp only [expandCP] at ihe
              exact ihe
            rw [show (r0 : Nat) - 0 = r0 from rfl] at hihe
            rw [show r0 + 1 - 0 = r0 + 1 from rfl, List.replicate_succ,
              List.cons_append, hihe]
          · rw [fullTs_cons_cons_ne a h t hah, encIds_cons_cons_ne a h t hah,
              fullTs_structure (h :: t), List.map_cons]
            simp only [expandCP]
            have hmapc : ((0 + 1) :: ((changeIdx (h :: t)).map (· + 1)
                  ++ [(h :: t).length]).map (· + 1))
                = ((0 : Nat) :: ((changeIdx (h :: t)).map (· + 1)
                    ++ [(h :: t).length])).map (· + 1) := rfl
            rw [hmapc, expandCP_map_succ,
              show ((0 : Nat) :: ((changeIdx (h :: t)).map (· + 1)
                ++ [(h :: t).length])) = fullTs (h :: t)
                from (fullTs_structure (h :: t)).symm,
              ihe]
            rfl

lemma changeIdx_mem_lt {α : Type} [DecidableEq α] (d : List α) :
    ∀ i ∈ changeIdx d, i < d.length - 1 := by
  intro i hi
  exact List.mem_range.mp (List.mem_filter.mp hi).1

lemma changeTimestamps_mem_lt {α : Type} [DecidableEq α] (d : List α)
    (h : d ≠ []) : ∀ t ∈ changeTimestamps d, t < d.length := by
  intro t ht
  rcases List.mem_cons.mp ht with h0 | hm
  · subst h0
    exact List.length_pos.mpr h
  · obtain ⟨i, hi, rfl⟩ := List.mem_map.mp hm
    have h1 := changeIdx_mem_lt d i hi
    have h2 : 0 < d.length := List.length_pos.mpr h
    omega

lemma encIds_length {α : Type} [DecidableEq α] (d : List α) (h : d ≠ []) :
    (encIds d).length = (changeTimestamps d).length := by
  cases d with
  | nil => exact absurd rfl h
  | cons x xs =>
      unfold encIds
      rw [filterMap_eq_map_of_forall (changeTimestamps (x :: xs)) _
        (fun t => (x :: xs).getD t x) (fun t ht => by
          have hlt := changeTimestamps_mem_lt (x :: xs) (by simp) t ht
          rw [List.getElem?_eq_getElem hlt]
          exact congrArg some (List.getD_eq_getElem (x :: xs) x hlt).symm),
        List.length_map]

/-- The sentinel timestamps are strictly increasing. -/
lemma fullTs_chain {α : Type} [DecidableEq α] (d : List α) (h : d ≠ []) :
    List.Chain' (· < ·) (fullTs d) := by
  rw [List.chain'_iff_pairwise, fullTs_structure,
    show ((0 : Nat) :: ((changeIdx d).map (· + 1) ++ [d.length]))
      = ((0 : Nat) :: (changeIdx d).map (· + 1)) ++ [d.length] from rfl,
    List.pairwise_append]
  have hpos : 0 < d.length := List.length_pos.mpr h
  refine ⟨?_, List.pairwise_singleton _ _, ?_⟩
  · rw [List.pairwise_cons]
    constructor
    · intro x hx
      obtain ⟨i, _, rfl⟩ := List.mem_map.mp hx
      omega
    · rw [List.pairwise_map]
      exact (List.Pairwise.sublist (List.filter_sublist _)
        (List.pairwise_lt_range _)).imp (fun hab => by omega)
  · intro x hx y hy
    rw [List.mem_singleton.mp hy]
    rcases List.mem_cons.mp hx with rfl | hm
    · exact hpos
    · obtain ⟨i, hi, rfl⟩ := List.mem_map.mp hm
      have := changeIdx_mem_lt d i hi
      omega

/-- The decoder's loop steps for i = 1, 2, ... are exactly the run
steps of the change-point list. -/
lemma range_map_getD_eq_mkSteps {α : Type} (dflt : α) :
    ∀ (ids : List α) (ts : List Nat), ids.length + 1 = ts.length →
      (List.range ids.length).map
        (fun i => (ts.getD i 0, ts.getD (i + 1) 0, ids.getD i dflt))
        = mkSteps ts ids := by
  intro ids
  induction ids with
  | nil =>
      intro ts hlen
      rw [show ([] : List α).length = 0 from rfl, List.range_zero,
        List.map_nil]
      cases ts with
      | nil => rfl
      | cons t l => cases l <;> rfl
  | cons v vs ih =>
      intro ts hlen
      obtain ⟨t0, ts1, rfl⟩ := exists_cons_of_ne_nil ts
        (by intro e; subst e; simp at hlen)
      obtain ⟨t1, ts', rfl⟩ := exists_cons_of_ne_nil ts1
        (by intro e; subst e; simp at hlen)
      rw [show (v :: vs).length = vs.length + 1 from rfl,
        List.range_succ_eq_map, List.map_cons, List.map_map,
        show mkSteps (t0 :: t1 :: ts') (v :: vs)
          = (t0, t1, v) :: mkSteps (t1 :: ts') vs from rfl]
      congr 1
      rw [← ih (t1 :: ts') (by simpa using hlen)]
      congr 1

/-- Pointwise value of the fold the decoder performs. -/
lemma foldl_sliceAssign_fn_getElem? {α : Type} (A B : Nat → Nat)
    (V : Nat → α) (l : List Nat) (arr : List α) (j : Nat) :
    (l.foldl (fun arr i => sliceAssign arr (A i) (B i) (V i)) arr)[j]?
      = arr[j]?.map
          (fun x => fillVal j x (l.map (fun i => (A i, B i, V i)))) := by
  rw [foldl_sliceAssign_fn_eq, foldl_sliceAssign_getElem?]

/-- Main decoder correctness: on a strictly increasing change-point
list headed by 0 with the sentinel layout (one more timestamp than
ids), the decoder returns the dense expansion, independently of the
uninitialised-memory value. -/
lemma decode_eq_expandCP {α : Type} (dflt : α) (ids : List α) (ts : List Nat)
    (hids : ids ≠ []) (hlen : ids.length + 1 = ts.length)
    (hchain : List.Chain' (· < ·) ts) (h0 : ts.head? = some 0) :
    get_time_series_for_id_series dflt ids ts = .ok (expandCP ts ids) := by
  obtain ⟨t0, rest, rfl⟩ := exists_cons_of_ne_nil ts
    (by intro e; subst e; simp at h0)
  have ht0 : t0 = 0 := by simpa using h0
  subst ht0
  have hchainle : List.Chain' (· ≤ ·) ((0 : Nat) :: rest) :=
    hchain.imp (fun a b hab => le_of_lt hab)
  have hrlen : ids.length = rest.length := by simpa using hlen
  rw [decode_ok_of_short dflt ids ((0 : Nat) :: rest) hids (by simp)
    (by omega)]
  congr 1
  apply List.ext_getElem?
  intro j
  rw [foldl_sliceAssign_fn_getElem?]
  by_cases hj : j < ((0 : Nat) :: rest).getLastD 0
  · rw [List.getElem?_replicate, if_pos hj, Option.map_some']
    have hsteps : (List.range (((0 : Nat) :: rest).length)).map
        (fun i => ((if i = 0 then ((0 : Nat) :: rest).getLastD 0
            else ((0 : Nat) :: rest).getD (i - 1) 0),
          ((0 : Nat) :: rest).getD i 0,
          (if i = 0 then ids.getLastD dflt else ids.getD (i - 1) dflt)))
        = (((0 : Nat) :: rest).getLastD 0, (0 : Nat), ids.getLastD dflt)
            :: mkSteps ((0 : Nat) :: rest) ids := by
      rw [show (((0 : Nat) :: rest).length) = rest.length + 1 from rfl,
        List.range_succ_eq_map, List.map_cons, List.map_map]
      congr 1
      rw [← range_map_getD_eq_mkSteps dflt ids ((0 : Nat) :: rest) hlen,
        ← hrlen]
      congr 1
    rw [hsteps,
      show fillVal j dflt
          ((((0 : Nat) :: rest).getLastD 0, (0 : Nat), ids.getLastD dflt)
            :: mkSteps ((0 : Nat) :: rest) ids)
        = fillVal j
            (if ((0 : Nat) :: rest).getLastD 0 ≤ j ∧ j < 0
              then ids.getLastD dflt else dflt)
            (mkSteps ((0 : Nat) :: rest) ids) from rfl,
      if_neg (fun hc => Nat.not_lt_zero j hc.2)]
    have hkey := expandCP_getElem?_fillVal rest 0 ids dflt j hchainle
      hrlen (Nat.zero_le j) hj
    rw [Nat.sub_zero] at hkey
    exact hkey.symm
  · rw [List.getElem?_replicate, if_neg hj]
    have hlenE := expandCP_length rest 0 ids hchainle hrlen
    exact (List.getElem?_eq_none (by omega)).symm

/-- C1: round-trip law for the run-length codec: for every non-empty
dense array, decoding the encoder's output with the final sentinel
timestamp (which get_time_series_for_id_series documents as its input
assumption) reproduces the array exactly, whatever value the decoder's
uninitialised buffer starts from. -/
theorem encode_decode_roundtrip {α : Type} [DecidableEq α] (dflt : α)
    (d : List α) (h : d ≠ []) :
    (get_id_series d true).bind
      (fun p => get_time_series_for_id_series dflt p.1 p.2) = .ok d := by
  rw [get_id_series_eq d h true,
    show ((if true then changeTimestamps d ++ [d.length]
        else changeTimestamps d) : List Nat)
      = changeTimestamps d ++ [d.length] from rfl,
    show (Except.ok (encIds d, changeTimestamps d ++ [d.length])
        : Except PyErr (List α × List Nat)).bind
        (fun p => get_time_series_for_id_series dflt p.1 p.2)
      = get_time_series_for_id_series dflt (encIds d)
          (changeTimestamps d ++ [d.length]) from rfl,
    show changeTimestamps d ++ [d.length] = fullTs d from rfl]
  obtain ⟨x, xs, rfl⟩ := exists_cons_of_ne_nil d h
  rw [decode_eq_expandCP dflt (encIds (x :: xs)) (fullTs (x :: xs))
      (by rw [encIds_cons]; simp)
      (by rw [encIds_length _ (by simp)]; simp [fullTs])
      (fullTs_chain _ (by simp))
      (by rw [fullTs_structure]; rfl),
    expandCP_fullTs_encIds (x :: xs) (by simp)]

/-- C1 witness at a concrete input. -/
theorem encode_decode_roundtrip_witness :
    (get_id_series ([5, 5, 5, 7, 7] : List Int) true).bind
      (fun p => get_time_series_for_id_series (0 : Int) p.1 p.2)
      = .ok [5, 5, 5, 7, 7] :=
  encode_decode_roundtrip 0 [5, 5, 5, 7, 7] (by decide)

/-- The encoder's start list matches the spec's description: 0 followed
by every index i above 0 whose value differs from its predecessor. -/
lemma changeTimestamps_eq_specStarts {α : Type} [DecidableEq α]
    (d : List α) (h : d ≠ []) : changeTimestamps d = specStarts d := by
  unfold changeTimestamps specStarts changeIdx
  congr 1
  obtain ⟨x, xs, rfl⟩ := exists_cons_of_ne_nil d h
  rw [show (x :: xs).length - 1 = xs.length from rfl,
    show (x :: xs).length = xs.length + 1 from rfl,
    List.range_succ_eq_map, List.filter_cons,
    if_neg (show ¬ ((decide (0 < 0)
        && decide ((x :: xs)[0]? ≠ (x :: xs)[0 - 1]?)) = true)
      from by simp),
    List.filter_map,
    show (Nat.succ : Nat → Nat) = (· + 1) from funext (fun n => rfl)]
  congr 1
  apply List.filter_congr
  intro i _
  show decide ((x :: xs)[i]? ≠ (x :: xs)[i + 1]?)
    = (decide (0 < i + 1)
        && decide ((x :: xs)[i + 1]? ≠ (x :: xs)[i + 1 - 1]?))
  rw [show i + 1 - 1 = i from rfl,
    show decide (0 < i + 1) = true from by simp, Bool.true_and]
  exact decide_eq_decide.mpr ne_comm

/-- The encoder's id series selects the dense array at the starts. -/
lemma encIds_getElem? {α : Type} [DecidableEq α] (d : List α) (h : d ≠ [])
    (k : Nat) :
    (encIds d)[k]? = ((changeTimestamps d)[k]?).bind (fun t => d[t]?) := by
  obtain ⟨x, xs, rfl⟩ := exists_cons_of_ne_nil d h
  rw [show encIds (x :: xs) = (changeTimestamps (x :: xs)).map
      (fun t => (x :: xs).getD t x) from
    filterMap_eq_map_of_forall _ _ _ (fun t ht => by
      have hlt := changeTimestamps_mem_lt (x :: xs) (by simp) t ht
      rw [List.getElem?_eq_getElem hlt]
      exact congrArg some (List.getD_eq_getElem (x :: xs) x hlt).symm),
    List.getElem?_map]
  cases hc : (changeTimestamps (x :: xs))[k]? with
  | none => rfl
  | some t =>
      have ht := List.getElem?_mem hc
      have hlt := changeTimestamps_mem_lt (x :: xs) (by simp) t ht
      rw [Option.map_some']
      show some ((x :: xs).getD t x) = (x :: xs)[t]?
      rw [List.getElem?_eq_getElem hlt]
      exact congrArg some (List.getD_eq_getElem (x :: xs) x hlt)

/-- C7: on a non-empty dense array the encoder returns starts equal to
0 followed by every index i above 0 where the value changes, ids of the
same length selecting the dense value at each start, and, when
append_final_timestamp is set, the array length appended to the
starts. -/
theorem get_id_series_spec {α : Type} [DecidableEq α] (d : List α)
    (h : d ≠ []) (ab : Bool) :
    ∃ ids starts,
      get_id_series d ab
        = .ok (ids, if ab then starts ++ [d.length] else starts) ∧
      starts = specStarts d ∧
      ids.length = starts.length ∧
      ∀ (k : Nat), ids[k]? = (starts[k]?).bind (fun (t : Nat) => d[t]?) :=
  ⟨encIds d, changeTimestamps d, get_id_series_eq d h ab,
    changeTimestamps_eq_specStarts d h, encIds_length d h,
    fun k => encIds_getElem? d h k⟩

/-- C7 witness at a concrete input. -/
theorem get_id_series_spec_witness :
    ∃ ids starts,
      get_id_series ([5, 5, 5, 7, 7] : List Int) false
        = .ok (ids,
            if false then starts ++ [([5, 5, 5, 7, 7] : List Int).length]
            else starts) ∧
      starts = specStarts ([5, 5, 5, 7, 7] : List Int) ∧
      ids.length = starts.length ∧
      ∀ (k : Nat), ids[k]?
        = (starts[k]?).bind
            (fun (t : Nat) => ([5, 5, 5, 7, 7] : List Int)[t]?) :=
  get_id_series_spec [5, 5, 5, 7, 7] (by decide) false

lemma foldl_min_const : ∀ (as : List Nat) (L : Nat),
    (∀ x ∈ as, x = L) → as.foldl min L = L := by
  intro as
  induction as with
  | nil => intro L _; rfl
  | cons x xs ih =>
      intro L hall
      rw [List.foldl_cons, hall x (List.mem_cons_self _ _), min_self]
      exact ih L (fun y hy => hall y (List.mem_cons_of_mem _ hy))

lemma min?_of_all_eq (l : List Nat) (L : Nat) (h : l ≠ [])
    (hall : ∀ x ∈ l, x = L) : l.min? = some L := by
  obtain ⟨a, as, rfl⟩ := exists_cons_of_ne_nil l h
  rw [show (a :: as).min? = some (as.foldl min a) from rfl,
    hall a (List.mem_cons_self _ _),
    foldl_min_const as L (fun y hy => hall y (List.mem_cons_of_mem _ hy))]

/-- The tuple of equally long streams changes at an index exactly when
some stream changes there. -/
lemma joint_change_iff (streams : List (List Int)) (i j : Nat) :
    ((streams.map (fun s => s.getD i 0))
        ≠ (streams.map (fun s => s.getD j 0)))
      ↔ ∃ s ∈ streams, s.getD i 0 ≠ s.getD j 0 := by
  rw [Ne, List.map_inj_left]
  constructor
  · intro hne
    by_contra hc
    push_neg at hc
    exact hne (fun s hs => hc s hs)
  · rintro ⟨s, hs, hne2⟩ hall
    exact hne2 (hall s hs)

/-- C2: multi-stream synchronization (spec-modelled, section 4.5): for a
non-empty list of equally long streams of positive length L, the
synchronizer's starts are the sorted de-duplicated union over all
streams of the indices 1 <= i < L where the stream changes, with 0
prepended, and each segment is the tuple of every stream's value at the
corresponding start. -/
theorem synchronize_spec (streams : List (List Int)) (L : Nat)
    (hne : streams ≠ []) (hL : 0 < L)
    (hlen : ∀ s ∈ streams, s.length = L) :
    synchronize streams false
      = ((specSyncStarts streams L).map
          (fun t => streams.map (fun s => s.getD t 0)),
        specSyncStarts streams L) := by
  have hmin : ((streams.map List.length).min?) = some L :=
    min?_of_all_eq _ L (by simpa using hne)
      (fun x hx => by
        obtain ⟨s, hs, rfl⟩ := List.mem_map.mp hx
        exact hlen s hs)
  unfold synchronize
  rw [hmin, Option.getD_some]
  have hjne : (List.range L).map
      (fun i => streams.map (fun s => s.getD i 0)) ≠ [] := by
    rw [Ne, List.map_eq_nil_iff, List.range_eq_nil]
    omega
  show (match get_id_series ((List.range L).map
        (fun i => streams.map (fun s => s.getD i 0))) false with
      | Except.ok p => p
      | Except.error _ => (([] : List (List Int)), ([] : List Nat)))
    = ((specSyncStarts streams L).map
        (fun t => streams.map (fun s => s.getD t 0)),
      specSyncStarts streams L)
  rw [get_id_series_eq _ hjne false]
  have hjlen : ((List.range L).map
      (fun i => streams.map (fun s => s.getD i 0))).length = L := by
    rw [List.length_map, List.length_range]
  have hstarts : changeTimestamps ((List.range L).map
      (fun i => streams.map (fun s => s.getD i 0)))
      = specSyncStarts streams L := by
    rw [changeTimestamps_eq_specStarts _ hjne]
    unfold specStarts specSyncStarts
    rw [hjlen]
    congr 1
    apply List.filter_congr
    intro i hi
    have hiL : i < L := List.mem_range.mp hi
    by_cases h0 : i = 0
    · subst h0
      simp
    · have hi1L : i - 1 < L := by omega
      congr 1
      rw [List.getElem?_map, List.getElem?_range hiL, Option.map_some',
        List.getElem?_map, List.getElem?_range hi1L, Option.map_some']
      rw [Bool.eq_iff_iff, decide_eq_true_iff, List.any_eq_true]
      rw [show (some (streams.map (fun s => s.getD i 0))
            ≠ some (streams.map (fun s => s.getD (i - 1) 0)))
          ↔ (streams.map (fun s => s.getD i 0)
            ≠ streams.map (fun s => s.getD (i - 1) 0)) from by simp,
        joint_change_iff streams i (i - 1)]
      constructor
      · rintro ⟨s, hs, hne2⟩
        exact ⟨s, hs, decide_eq_true hne2⟩
      · rintro ⟨s, hs, hd⟩
        exact ⟨s, hs, of_decide_eq_true hd⟩
  have hids : encIds ((List.range L).map
      (fun i => streams.map (fun s => s.getD i 0)))
      = (specSyncStarts streams L).map
          (fun t => streams.map (fun s => s.getD t 0)) := by
    unfold encIds
    rw [filterMap_eq_map_of_forall _ _
      (fun t => streams.map (fun s => s.getD t 0))
      (fun t ht => by
        have hlt := changeTimestamps_mem_lt _ hjne t ht
        rw [hjlen] at hlt
        rw [List.getElem?_map, List.getElem?_range hlt, Option.map_some']),
      hstarts]
  rw [if_neg Bool.false_ne_true]
  rw [show (match (Except.ok (encIds ((List.range L).map
        (fun i => streams.map (fun s => s.getD i 0))),
        changeTimestamps ((List.range L).map
          (fun i => streams.map (fun s => s.getD i 0))))
        : Except PyErr (List (List Int) × List Nat)) with
      | .ok p => p
      | .error _ => ([], []))
      = (encIds ((List.range L).map
          (fun i => streams.map (fun s => s.getD i 0))),
        changeTimestamps ((List.range L).map
          (fun i => streams.map (fun s => s.getD i 0)))) from rfl,
    hstarts, hids]

/-- C2 witness: the spec's Example 3. -/
theorem synchronize_spec_witness :
    synchronize [[1, 1, 2, 2], [9, 9, 9, 8]] false
      = ((specSyncStarts [[1, 1, 2, 2], [9, 9, 9, 8]] 4).map
          (fun t => [[1, 1, 2, 2], [9, 9, 9, 8]].map
            (fun s => s.getD t 0)),
        specSyncStarts [[1, 1, 2, 2], [9, 9, 9, 8]] 4) :=
  synchronize_spec [[1, 1, 2, 2], [9, 9, 9, 8]] 4 (by decide) (by decide)
    (by decide)

end MMFast
